import Mathlib

/-!
Verification of the lambda_calculus repository core: de Bruijn terms,
capture-avoiding substitution, beta reduction under selectable strategies,
the textual parser, and the Church-pair helpers built on top.

The term representation, substitution engine, reduction engine and parser
are not shipped in the visible sources (only their callers in
`combinators.rs` and `church/pairs.rs` are), so those definitions are
modelled from the specification; the Church-pair operations are translated
directly from `src/church/pairs.rs`.
-/

set_option maxRecDepth 4096

namespace LC

/-- Modelled from the spec: the `Term` algebraic type of `term.rs` (absent
from the visible sources), with exactly three variants: `Var index`
(de Bruijn index, 1 = nearest enclosing abstraction), `Abs body`, and
`App function argument`. -/
inductive Term : Type
  | Var : Nat → Term
  | Abs : Term → Term
  | App : Term → Term → Term
deriving DecidableEq, Repr

open Term

/-- Modelled from the spec: `shift(t, delta, cutoff)` of the substitution
engine (absent `term.rs`/`reduction.rs`): walks `t`, incrementing every
`Var i` with `i >= cutoff` by `delta`, and increments the cutoff by 1 when
descending into an `Abs`.  The engine only ever shifts upward (the spec's
downward renumbering is fused into `substitute`'s index decrement), so
`delta` is modelled as a natural number. -/
def shift : Term → Nat → Nat → Term
  | Var i, d, c => if c ≤ i then Var (i + d) else Var i
  | Abs b, d, c => Abs (shift b d (c + 1))
  | App f a, d, c => App (shift f d c) (shift a d c)

/-- Modelled from the spec: `substitute(term, index, value)` of the
substitution engine (absent from the visible sources).  At `Var i` it
replaces with `value` if `i = index`, decrements if `i > index` (closing
the gap left by the eliminated binder) and leaves `i < index` unchanged;
at `Abs body` it recurses with `index + 1` and `value` pre-shifted by +1;
at `App` it recurses into both sides. -/
def substitute : Term → Nat → Term → Term
  | Var i, k, v => if i = k then v else if k < i then Var (i - 1) else Var i
  | Abs b, k, v => Abs (substitute b (k + 1) (shift v 1 1))
  | App f a, k, v => App (substitute f k v) (substitute a k v)

/-- `isFreeIn t j` decides whether index `j` occurs free in `t` (an
occurrence of `Var (j + d)` under `d` binders).  Used only to state the
capture-avoidance property of `substitute`. -/
def isFreeIn : Term → Nat → Bool
  | Var i, j => i == j
  | Abs b, j => isFreeIn b (j + 1)
  | App f a, j => isFreeIn f j || isFreeIn a j

/-- Modelled from the spec: the four reduction strategies of the absent
`reduction.rs`: normal order, call-by-name, applicative order and the
head-spine hybrid. -/
inductive Order : Type
  | NOR : Order
  | CBN : Order
  | APP : Order
  | HSP : Order
deriving DecidableEq, Repr

open Order

/-- Modelled from the spec: the redex search of `beta_step` in the absent
`reduction.rs`, returning `some` of the contracted term when the order's
selection rule finds a redex and `none` otherwise.  Normal order contracts
the leftmost-outermost redex, descending into abstraction bodies and into
the function side before the argument side; call-by-name contracts only
head redexes, never inside abstractions or unapplied arguments;
applicative order is leftmost-innermost, fully reducing the function and
then the argument before contracting at the root; head-spine reduces only
function positions (under binders) to expose the head. -/
def betaStepO : Order → Term → Option Term
  | _, Var _ => none
  | NOR, Abs b => (betaStepO NOR b).map Abs
  | CBN, Abs _ => none
  | APP, Abs b => (betaStepO APP b).map Abs
  | HSP, Abs b => (betaStepO HSP b).map Abs
  | NOR, App (Abs b) a => some (substitute b 1 a)
  | CBN, App (Abs b) a => some (substitute b 1 a)
  | HSP, App (Abs b) a => some (substitute b 1 a)
  | NOR, App f a =>
    match betaStepO NOR f with
    | some g => some (App g a)
    | none => (betaStepO NOR a).map (App f)
  | CBN, App f a => (betaStepO CBN f).map (fun g => App g a)
  | HSP, App f a => (betaStepO HSP f).map (fun g => App g a)
  | APP, App f a =>
    match betaStepO APP f with
    | some g => some (App g a)
    | none =>
      match betaStepO APP a with
      | some b => some (App f b)
      | none =>
        match f with
        | Abs b => some (substitute b 1 a)
        | _ => none

/-- Modelled from the spec: `beta_step(term, order)` of the absent
`reduction.rs`: one reduction according to the order's redex-selection
rule, returning the term unchanged when no redex is found. -/
def beta_step (t : Term) (order : Order) : Term :=
  (betaStepO order t).getD t

/-- Modelled from the spec: the unbounded (`limit = 0`) iteration of
`beta` in the absent `reduction.rs`, which repeats `beta_step` until a
step returns a term structurally equal to its input.  The extra `fuel`
argument makes the possibly divergent loop a total function: `none` means
the fixed point was not reached within `fuel` iterations. -/
def betaUnbounded (order : Order) (t : Term) : Nat → Option Term
  | 0 => none
  | fuel + 1 =>
    if beta_step t order = t then some t
    else betaUnbounded order (beta_step t order) fuel

/-- Modelled from the spec: the bounded (`limit > 0`) iteration of `beta`,
performing at most `limit` steps and stopping early at a fixed point. -/
def betaLimited (order : Order) (t : Term) : Nat → Term
  | 0 => t
  | n + 1 =>
    if beta_step t order = t then t
    else betaLimited order (beta_step t order) n

/-- Modelled from the spec: `beta(term, order, limit, verbose)` of the
absent `reduction.rs`.  `limit = 0` is the unbounded sentinel (iterate to
a fixed point, here bounded by the modelling `fuel`); a positive `limit`
iterates at most `limit` steps and always terminates.  The `verbose` flag
only reports intermediate terms on a side channel and never affects the
returned term, so it is not modelled. -/
def beta (t : Term) (order : Order) (limit : Nat) (fuel : Nat) : Option Term :=
  if limit = 0 then betaUnbounded order t fuel else some (betaLimited order t limit)

/-- Modelled from the spec: `normalize(term)` of the absent
`reduction.rs`: iterate the normal-order step to a fixed point (written
with its own recursion, to be compared against `beta` with limit 0). -/
def normalize (t : Term) : Nat → Option Term
  | 0 => none
  | fuel + 1 =>
    if beta_step t NOR = t then some t
    else normalize (beta_step t NOR) fuel

/-- One-step beta reduction: the compatible closure of contracting a
single redex via `substitute`. -/
inductive Step1 : Term → Term → Prop
  | beta (b a : Term) : Step1 (App (Abs b) a) (substitute b 1 a)
  | appL {f g : Term} (a : Term) : Step1 f g → Step1 (App f a) (App g a)
  | appR (f : Term) {a b : Term} : Step1 a b → Step1 (App f a) (App f b)
  | inAbs {b c : Term} : Step1 b c → Step1 (Abs b) (Abs c)

/-- `hasBetaRedex t` decides whether `t` contains any redex, i.e. whether
`t` is not in beta-normal form. -/
def hasBetaRedex : Term → Bool
  | Var _ => false
  | Abs b => hasBetaRedex b
  | App (Abs _) _ => true
  | App f a => hasBetaRedex f || hasBetaRedex a

/-- Parallel beta reduction: contract any subset of the redexes of a term
simultaneously.  Used to prove confluence of the reduction engine. -/
inductive Par : Term → Term → Prop
  | var (i : Nat) : Par (Var i) (Var i)
  | beta {b b' a a' : Term} :
      Par b b' → Par a a' → Par (App (Abs b) a) (substitute b' 1 a')
  | inAbs {b b' : Term} : Par b b' → Par (Abs b) (Abs b')
  | app {f f' a a' : Term} :
      Par f f' → Par a a' → Par (App f a) (App f' a')

/-- Finitely many parallel reduction steps. -/
def ParStar : Term → Term → Prop := Relation.ReflTransGen Par

/-- The complete development of a term: contract every redex present in it
at once (the Takahashi function used for the triangle property). -/
def cd : Term → Term
  | Var i => Var i
  | Abs b => Abs (cd b)
  | App (Abs b) a => substitute (cd b) 1 (cd a)
  | App f a => App (cd f) (cd a)

/-- Modelled from the spec: the error type of the absent `term.rs`
(structural mismatches plus the encoding-shape failures used by the
derived layer; `NotAPair` is the variant raised in `church/pairs.rs`). -/
inductive Error : Type
  | NotAbstraction : Error
  | NotApplication : Error
  | NotAPair : Error
  | NotANumeral : Error
deriving DecidableEq, Repr

/-- Modelled from the spec: `unapp` of the absent `term.rs`: decompose an
`App` into its two children, failing with `NotApplication` otherwise. -/
def Term.unapp : Term → Except Error (Term × Term)
  | App f a => .ok (f, a)
  | _ => .error .NotApplication

/-- Modelled from the spec: `rhs` of the absent `term.rs`: project the
argument side of an `App`, failing with `NotApplication` otherwise. -/
def Term.rhs : Term → Except Error Term
  | App _ a => .ok a
  | _ => .error .NotApplication

/-- The candidate computation inside `unpair` in `src/church/pairs.rs`:
strip at most one outer abstraction, leave any other shape unchanged. -/
def stripAbs : Term → Term
  | Abs inner => inner
  | t => t

/-- Shape test used to state the pair-recognition claims. -/
def isApp : Term → Bool
  | App _ _ => true
  | _ => false

/-- From `src/church/pairs.rs`: `unpair` splits a Church-encoded pair into
its two components: strip at most one outer `Abs`, decompose the candidate
with `unapp` (failing with `NotAPair` if it is not an application), then
project the right-hand side of the function part with `rhs`, propagating
that projection's error. -/
def Term.unpair (t : Term) : Except Error (Term × Term) :=
  match (stripAbs t).unapp with
  | .ok (wrapped_a, b) =>
    match wrapped_a.rhs with
    | .ok a => .ok (a, b)
    | .error e => .error e
  | .error _ => .error .NotAPair

/-- From `src/church/pairs.rs`: `unpair_ref`, the by-reference variant of
`unpair`; in this value-level embedding it has the same body. -/
def Term.unpair_ref (t : Term) : Except Error (Term × Term) :=
  match (stripAbs t).unapp with
  | .ok (wrapped_a, b) =>
    match wrapped_a.rhs with
    | .ok a => .ok (a, b)
    | .error e => .error e
  | .error _ => .error .NotAPair

/-- From `src/church/pairs.rs`: `is_pair` checks whether `unpair_ref`
succeeds. -/
def Term.is_pair (t : Term) : Bool :=
  t.unpair_ref.isOk

/-- From `src/church/pairs.rs`: `fst` returns the first component of a
Church-encoded pair, propagating the error of `unpair`. -/
def Term.fst (t : Term) : Except Error Term :=
  match t.unpair with
  | .ok p => .ok p.1
  | .error e => .error e

/-- From `src/church/pairs.rs`: `snd` returns the second component of a
Church-encoded pair, propagating the error of `unpair`. -/
def Term.snd (t : Term) : Except Error Term :=
  match t.unpair with
  | .ok p => .ok p.2
  | .error e => .error e

/-- From `src/church/pairs.rs`: `impl From<(Term, Term)> for Term`, which
builds the pair term `abs(app!(Var(1), t1, t2))`. -/
def Term.fromPair : Term × Term → Term
  | (t1, t2) => Abs (App (App (Var 1) t1) t2)

/-- Modelled from the spec: `ParseError{reason, position}` of the absent
`parser.rs`. -/
structure ParseError where
  reason : String
  position : Nat
deriving DecidableEq, Repr

/-- Equality of parse and decomposition results is decidable, so the
concrete examples can be settled by evaluation. -/
instance {e a : Type} [DecidableEq e] [DecidableEq a] : DecidableEq (Except e a) :=
  fun x y =>
    match x, y with
    | .ok v, .ok w =>
      if h : v = w then .isTrue (by rw [h])
      else .isFalse (fun hc => h (Except.ok.inj hc))
    | .error v, .error w =>
      if h : v = w then .isTrue (by rw [h])
      else .isFalse (fun hc => h (Except.error.inj hc))
    | .ok _, .error _ => .isFalse (fun hc => Except.noConfusion hc)
    | .error _, .ok _ => .isFalse (fun hc => Except.noConfusion hc)

/-- Modelled from the spec: the selector for the two surface syntaxes
accepted by the absent `parser.rs` (classic named-variable syntax and the
de Bruijn syntax). -/
inductive Dialect : Type
  | Classic : Dialect
  | DeBruijn : Dialect
deriving DecidableEq, Repr

/-- Consume leading whitespace, tracking the character position. -/
def skipWs : List Char → Nat → List Char × Nat
  | c :: cs, p => if c.isWhitespace then skipWs cs (p + 1) else (c :: cs, p)
  | [], p => ([], p)

/-- Consume a maximal run of letters, returning the name read. -/
def takeName : List Char → Nat → String × List Char × Nat
  | c :: cs, p =>
    if c.isAlpha then
      let (nm, rest, q) := takeName cs (p + 1)
      (String.mk (c :: nm.data), rest, q)
    else ("", c :: cs, p)
  | [], p => ("", [], p)

/-- Consume a maximal run of digits, accumulating their value. -/
def takeNum : List Char → Nat → Nat → Nat × List Char × Nat
  | c :: cs, acc, p =>
    if c.isDigit then takeNum cs (acc * 10 + (c.toNat - 48)) (p + 1)
    else (acc, c :: cs, p)
  | [], acc, p => (acc, [], p)

/-- Position of the first occurrence of a name in a list, if any. -/
def posOf (l : List String) (n : String) : Option Nat :=
  match l with
  | [] => none
  | x :: xs => if x = n then some 0 else (posOf xs n).map (· + 1)

/-- Modelled from the spec: name resolution of the absent `parser.rs`
(classic syntax).  A name bound by an enclosing binder resolves to its
1-based position in the binder context, innermost first; a free name is
looked up in (or appended to) the table of free names seen so far and
resolves to the binder depth plus its stable 1-based slot, so every
occurrence of the same free name resolves consistently across the whole
term. -/
def resolve (ctx free : List String) (n : String) : Nat × List String :=
  match posOf ctx n with
  | some p => (p + 1, free)
  | none =>
    match posOf free n with
    | some q => (ctx.length + q + 1, free)
    | none => (ctx.length + free.length + 1, free ++ [n])

/-- The production being parsed: the recursive-descent parser is embedded
as one function, structurally recursive on its fuel, dispatching on this
mode (`term` for `term := application`, `appRest` for the left fold of
further atoms onto an accumulated function term, `atom` for
`atom := variable | ( term ) | binder term`, and `binder` for the
classic-syntax name list of a lambda binder). -/
inductive PMode : Type
  | term : PMode
  | appRest : Term → PMode
  | atom : PMode
  | binder : List String → PMode

/-- Modelled from the spec: the recursive-descent grammar of the absent
`parser.rs` (`term := application`, `application := atom+` folded
left-associatively, `atom := variable | ( term ) | binder term`, binders
named with multi-name shorthand in classic syntax and anonymous in
de Bruijn syntax).  The state threads the binder context, the free-name
table, the remaining input and the character position; `fuel` bounds the
recursion and makes the modelled parser total. -/
def parseF : Nat → PMode → Dialect → List String → List String →
    List Char → Nat → Except ParseError (Term × List String × List Char × Nat)
  | 0, _, _, _, _, _, p => .error ⟨"parser recursion limit exceeded", p⟩
  | fuel + 1, mode, d, ctx, free, cs, p =>
    match mode with
    | .term =>
      match parseF fuel .atom d ctx free cs p with
      | .error e => .error e
      | .ok (t, free1, cs1, p1) => parseF fuel (.appRest t) d ctx free1 cs1 p1
    | .appRest acc =>
      match skipWs cs p with
      | (cs1, p1) =>
        match cs1 with
        | [] => .ok (acc, free, [], p1)
        | ')' :: _ => .ok (acc, free, cs1, p1)
        | _ :: _ =>
          match parseF fuel .atom d ctx free cs1 p1 with
          | .error e => .error e
          | .ok (t, free2, cs2, p2) =>
            parseF fuel (.appRest (App acc t)) d ctx free2 cs2 p2
    | .atom =>
      match skipWs cs p with
      | (cs1, p1) =>
        match cs1 with
        | [] => .error ⟨"unexpected end of input", p1⟩
        | c :: rest =>
          if c = 'λ' ∨ c = '\\' then
            match d with
            | Dialect.DeBruijn =>
              match parseF fuel .term d ctx free rest (p1 + 1) with
              | .error e => .error e
              | .ok (b, free2, cs2, p2) => .ok (Abs b, free2, cs2, p2)
            | Dialect.Classic => parseF fuel (.binder []) d ctx free rest (p1 + 1)
          else if c = '(' then
            match parseF fuel .term d ctx free rest (p1 + 1) with
            | .error e => .error e
            | .ok (t, free2, cs2, p2) =>
              match skipWs cs2 p2 with
              | (')' :: rest3, p3) => .ok (t, free2, rest3, p3 + 1)
              | (_, p3) => .error ⟨"unmatched parenthesis", p3⟩
          else
            match d with
            | Dialect.Classic =>
              if c.isAlpha then
                match takeName (c :: rest) p1 with
                | (nm, cs2, p2) =>
                  match resolve ctx free nm with
                  | (i, free2) => .ok (Var i, free2, cs2, p2)
              else .error ⟨"unrecognized token", p1⟩
            | Dialect.DeBruijn =>
              if c.isDigit then
                match takeNum (c :: rest) 0 p1 with
                | (n, cs2, p2) =>
                  if n = 0 then .error ⟨"a variable index must be positive", p1⟩
                  else .ok (Var n, free, cs2, p2)
              else .error ⟨"unrecognized token", p1⟩
    | .binder names =>
      match skipWs cs p with
      | (cs1, p1) =>
        match cs1 with
        | [] => .error ⟨"a binder with no body", p1⟩
        | c :: rest =>
          if c = '.' then
            if names = [] then .error ⟨"a binder with no name", p1⟩
            else
              match parseF fuel .term d (names.reverse ++ ctx) free
                  rest (p1 + 1) with
              | .error e => .error e
              | .ok (b, free2, cs2, p2) =>
                .ok (names.foldr (fun _ t => Abs t) b, free2, cs2, p2)
          else if c.isAlpha then
            match takeName (c :: rest) p1 with
            | (nm, cs2, p2) => parseF fuel (.binder (names ++ [nm])) d ctx free cs2 p2
          else .error ⟨"a binder with no body", p1⟩

/-- Modelled from the spec: the `term := application` entry of the
recursive-descent parser. -/
def parseTerm (fuel : Nat) (d : Dialect) (ctx free : List String)
    (cs : List Char) (p : Nat) :
    Except ParseError (Term × List String × List Char × Nat) :=
  parseF fuel .term d ctx free cs p

/-- Modelled from the spec: the parser entry point
`parse(source_text, notation)` of the absent `parser.rs`: convert source
text in the selected syntax into a `Term` or fail with a positioned
`ParseError`; a failed parse yields no term, and a parse that leaves
unconsumed input fails. -/
def parse (s : String) (d : Dialect) : Except ParseError Term :=
  let cs := s.data
  match parseTerm (4 * (cs.length + 1)) d [] [] cs 0 with
  | .error e => .error e
  | .ok (t, _, [], _) => .ok t
  | .ok (_, _, _ :: _, p) => .error ⟨"unexpected character", p⟩

/-! ### Free-variable bookkeeping of `shift` and `substitute` -/

theorem isFreeIn_shift_lt {v : Term} {c j : Nat} (h : j < c) :
    isFreeIn (shift v 1 c) j = isFreeIn v j := by
  induction v generalizing c j with
  | Var i =>
    simp only [shift]
    split <;> simp only [isFreeIn] <;> rw [Bool.eq_iff_iff] <;>
      simp only [beq_iff_eq] <;> omega
  | Abs b ih => simpa only [shift, isFreeIn] using ih (by omega)
  | App f a ihf iha => simp [shift, isFreeIn, ihf h, iha h]

theorem isFreeIn_shift_eq {v : Term} {c : Nat} :
    isFreeIn (shift v 1 c) c = false := by
  induction v generalizing c with
  | Var i =>
    simp only [shift]
    split <;> simp only [isFreeIn] <;> rw [beq_eq_false_iff_ne] <;> omega
  | Abs b ih => simpa only [shift, isFreeIn] using ih
  | App f a ihf iha => simp [shift, isFreeIn, ihf, iha]

theorem isFreeIn_shift_gt {v : Term} {c j : Nat} (h : c < j) :
    isFreeIn (shift v 1 c) j = isFreeIn v (j - 1) := by
  induction v generalizing c j with
  | Var i =>
    simp only [shift]
    split <;> simp only [isFreeIn] <;> rw [Bool.eq_iff_iff] <;>
      simp only [beq_iff_eq] <;> omega
  | Abs b ih =>
    have hj : j - 1 + 1 = j := by omega
    simp only [shift, isFreeIn]
    rw [ih (by omega)]
    congr 1
    omega
  | App f a ihf iha => simp [shift, isFreeIn, ihf h, iha h]

/-- Free-variable characterisation of capture-avoiding substitution: a
variable is free in `substitute t i v` exactly when it is a free variable
of `t` below the eliminated index, a free variable of `t` above it
(renumbered down by one), or a free variable of `v` itself — at its
original index, i.e. still referring to the binder scope it had in `v`. -/
theorem isFreeIn_substitute {t : Term} {i : Nat} {v : Term} {j : Nat}
    (hj : 1 ≤ j) :
    isFreeIn (substitute t i v) j = true ↔
      (isFreeIn t j = true ∧ j < i) ∨
        (isFreeIn t (j + 1) = true ∧ i ≤ j) ∨
          (isFreeIn t i = true ∧ isFreeIn v j = true) := by
  induction t generalizing i v j with
  | Var k =>
    by_cases hk : k = i
    · subst hk
      simp only [substitute, if_pos rfl, isFreeIn, beq_iff_eq]
      constructor
      · intro h; exact Or.inr (Or.inr ⟨by simp, h⟩)
      · rintro (⟨h1, h2⟩ | ⟨h1, h2⟩ | ⟨_, h2⟩) <;> first | omega | exact h2
    · rcases Nat.lt_or_ge i k with hik | hik
      · have hsub : substitute (Var k) i v = Var (k - 1) := by
          simp [substitute, hk, hik]
        rw [hsub]
        simp only [isFreeIn, beq_iff_eq, hk, false_and, or_false]
        omega
      · have hki : k < i := by omega
        have hsub : substitute (Var k) i v = Var k := by
          simp [substitute, hk]
          omega
        rw [hsub]
        simp only [isFreeIn, beq_iff_eq, hk, false_and, or_false]
        omega
  | Abs b ih =>
    simp only [substitute, isFreeIn]
    rw [ih (by omega)]
    constructor
    · rintro (⟨h1, h2⟩ | ⟨h1, h2⟩ | ⟨h1, h2⟩)
      · exact Or.inl ⟨h1, by omega⟩
      · exact Or.inr (Or.inl ⟨h1, by omega⟩)
      · rw [isFreeIn_shift_gt (by omega)] at h2
        refine Or.inr (Or.inr ⟨h1, ?_⟩)
        simpa [Nat.add_sub_cancel] using h2
    · rintro (⟨h1, h2⟩ | ⟨h1, h2⟩ | ⟨h1, h2⟩)
      · exact Or.inl ⟨h1, by omega⟩
      · exact Or.inr (Or.inl ⟨h1, by omega⟩)
      · refine Or.inr (Or.inr ⟨h1, ?_⟩)
        rw [isFreeIn_shift_gt (by omega)]
        simpa [Nat.add_sub_cancel] using h2
  | App f a ihf iha =>
    simp only [substitute, isFreeIn, Bool.or_eq_true]
    rw [ihf hj, iha hj]
    tauto

/-! ### The single-step engine performs exactly one contraction -/

/-- Whenever the redex search of an order succeeds, the returned term is
obtained from the input by contracting exactly one redex. -/
theorem betaStepO_sound (o : Order) (t : Term) :
    ∀ u, betaStepO o t = some u → Step1 t u := by
  induction o, t using betaStepO.induct with
  | case1 x i => intro u h; simp [betaStepO] at h
  | case2 b ih =>
    intro u h
    simp only [betaStepO, Option.map_eq_some'] at h
    obtain ⟨w, hw, rfl⟩ := h
    exact Step1.inAbs (ih w hw)
  | case3 b => intro u h; simp [betaStepO] at h
  | case4 b ih =>
    intro u h
    simp only [betaStepO, Option.map_eq_some'] at h
    obtain ⟨w, hw, rfl⟩ := h
    exact Step1.inAbs (ih w hw)
  | case5 b ih =>
    intro u h
    simp only [betaStepO, Option.map_eq_some'] at h
    obtain ⟨w, hw, rfl⟩ := h
    exact Step1.inAbs (ih w hw)
  | case6 b a =>
    intro u h
    simp only [betaStepO, Option.some.injEq] at h
    exact h ▸ Step1.beta b a
  | case7 b a =>
    intro u h
    simp only [betaStepO, Option.some.injEq] at h
    exact h ▸ Step1.beta b a
  | case8 b a =>
    intro u h
    simp only [betaStepO, Option.some.injEq] at h
    exact h ▸ Step1.beta b a
  | case9 f a hne g hf ih =>
    intro u h
    cases f with
    | Abs b => exact absurd rfl (hne b)
    | Var i => simp [betaStepO] at hf
    | App f1 f2 =>
      simp only [betaStepO, hf, Option.some.injEq] at h
      exact h ▸ Step1.appL a (ih g hf)
  | case10 f a hne hf ihf iha =>
    intro u h
    cases f with
    | Abs b => exact absurd rfl (hne b)
    | Var i =>
      simp only [betaStepO, hf, Option.map_eq_some'] at h
      obtain ⟨w, hw, rfl⟩ := h
      exact Step1.appR _ (iha w hw)
    | App f1 f2 =>
      simp only [betaStepO, hf, Option.map_eq_some'] at h
      obtain ⟨w, hw, rfl⟩ := h
      exact Step1.appR _ (iha w hw)
  | case11 f a hne ih =>
    intro u h
    cases f with
    | Abs b => exact absurd rfl (hne b)
    | Var i => simp [betaStepO] at h
    | App f1 f2 =>
      simp only [betaStepO, Option.map_eq_some'] at h
      obtain ⟨w, hw, rfl⟩ := h
      exact Step1.appL a (ih w hw)
  | case12 f a hne ih =>
    intro u h
    cases f with
    | Abs b => exact absurd rfl (hne b)
    | Var i => simp [betaStepO] at h
    | App f1 f2 =>
      simp only [betaStepO, Option.map_eq_some'] at h
      obtain ⟨w, hw, rfl⟩ := h
      exact Step1.appL a (ih w hw)
  | case13 f a g hf ih =>
    intro u h
    simp only [betaStepO, hf, Option.some.injEq] at h
    exact h ▸ Step1.appL a (ih g hf)
  | case14 f a hf g ha ihf iha =>
    intro u h
    simp only [betaStepO, hf, ha, Option.some.injEq] at h
    exact h ▸ Step1.appR f (iha g ha)
  | case15 a ha b hb ihb iha =>
    intro u h
    simp only [betaStepO] at hb
    simp only [betaStepO, hb, ha, Option.some.injEq] at h
    exact h ▸ Step1.beta b a
  | case16 f a hf ha hne ihf iha =>
    intro u h
    cases f with
    | Abs b => exact absurd rfl (hne b)
    | Var i => simp [betaStepO, hf, ha] at h
    | App f1 f2 =>
      simp only [betaStepO] at hf
      simp only [betaStepO, hf, ha] at h
      exact Option.noConfusion h

/-- Parallel reduction is reflexive. -/
theorem Par.refl : ∀ t : Term, Par t t := by
  intro t
  induction t with
  | Var i => exact Par.var i
  | Abs b ih => exact Par.inAbs ih
  | App f a ihf iha => exact Par.app ihf iha

/-- A single contraction is a parallel reduction step. -/
theorem par_of_step {t u : Term} (h : Step1 t u) : Par t u := by
  induction h with
  | beta b a => exact Par.beta (Par.refl b) (Par.refl a)
  | appL a _ ih => exact Par.app ih (Par.refl a)
  | appR f _ ih => exact Par.app (Par.refl f) ih
  | inAbs _ ih => exact Par.inAbs ih

/-! ### Commutation lemmas for `shift` and `substitute` -/

theorem shift_shift (t : Term) : ∀ {c c' : Nat}, c' ≤ c →
    shift (shift t 1 c') 1 (c + 1) = shift (shift t 1 c) 1 c' := by
  induction t with
  | Var i =>
    intro c c' h
    simp only [shift]
    split_ifs <;> simp only [shift] <;> split_ifs <;>
      first
        | rfl
        | (simp only [Term.Var.injEq]; omega)
        | (exfalso; omega)
  | Abs b ih =>
    intro c c' h
    simp only [shift]
    rw [ih (by omega)]
  | App f a ihf iha =>
    intro c c' h
    simp only [shift]
    rw [ihf h, iha h]

theorem shift_substitute_le (t : Term) : ∀ {s : Term} {k c : Nat},
    1 ≤ k → k ≤ c →
    shift (substitute t k s) 1 c = substitute (shift t 1 (c + 1)) k (shift s 1 c) := by
  induction t with
  | Var i =>
    intro s k c hk hc
    simp only [substitute, shift]
    split_ifs <;> simp only [substitute, shift] <;> split_ifs <;>
      first
        | rfl
        | (simp only [Term.Var.injEq]; omega)
        | (exfalso; omega)
  | Abs b ih =>
    intro s k c hk hc
    simp only [substitute, shift]
    rw [ih (by omega) (by omega), shift_shift s (by omega)]
  | App f a ihf iha =>
    intro s k c hk hc
    simp only [substitute, shift]
    rw [ihf hk hc, iha hk hc]

theorem shift_substitute_ge (t : Term) : ∀ {s : Term} {k c : Nat},
    1 ≤ c → c ≤ k →
    shift (substitute t k s) 1 c = substitute (shift t 1 c) (k + 1) (shift s 1 c) := by
  induction t with
  | Var i =>
    intro s k c hc hk
    simp only [substitute, shift]
    split_ifs <;> simp only [substitute, shift] <;> split_ifs <;>
      first
        | rfl
        | (simp only [Term.Var.injEq]; omega)
        | (exfalso; omega)
  | Abs b ih =>
    intro s k c hc hk
    simp only [substitute, shift]
    rw [ih (by omega) (by omega), shift_shift s (by omega)]
  | App f a ihf iha =>
    intro s k c hc hk
    simp only [substitute, shift]
    rw [ihf hc hk, iha hc hk]

theorem substitute_shift (t : Term) : ∀ {s : Term} {c : Nat},
    substitute (shift t 1 c) c s = t := by
  induction t with
  | Var i =>
    intro s c
    simp only [shift]
    split_ifs <;> simp only [substitute] <;> split_ifs <;>
      first
        | rfl
        | (simp only [Term.Var.injEq]; omega)
        | (exfalso; omega)
  | Abs b ih =>
    intro s c
    simp only [shift, substitute]
    rw [ih]
  | App f a ihf iha =>
    intro s c
    simp only [shift, substitute]
    rw [ihf, iha]

theorem substitute_substitute (t : Term) : ∀ {u v : Term} {i j : Nat},
    1 ≤ i → i ≤ j →
    substitute (substitute t (j + 1) (shift v 1 i)) i (substitute u j v) =
      substitute (substitute t i u) j v := by
  induction t with
  | Var m =>
    intro u v i j hi hij
    simp only [substitute]
    split_ifs <;> (try simp only [substitute]) <;> (try split_ifs) <;>
      first
        | rfl
        | apply substitute_shift
        | (simp only [Term.Var.injEq]; omega)
        | (exfalso; omega)
  | Abs b ih =>
    intro u v i j hi hij
    simp only [substitute]
    rw [← shift_shift v (by omega), shift_substitute_ge u (by omega) (by omega),
      ih (by omega) (by omega)]
  | App f a ihf iha =>
    intro u v i j hi hij
    simp only [substitute]
    rw [ihf hi hij, iha hi hij]

/-! ### Parallel reduction is preserved by shifting and substitution -/

theorem par_shift {t t' : Term} (h : Par t t') :
    ∀ {c : Nat}, 1 ≤ c → Par (shift t 1 c) (shift t' 1 c) := by
  induction h with
  | var i => intro c hc; exact Par.refl _
  | @beta b b' a a' hb ha ihb iha =>
    intro c hc
    simp only [shift]
    rw [shift_substitute_le b' (by omega) (by omega)]
    exact Par.beta (ihb (by omega)) (iha hc)
  | inAbs hb ih =>
    intro c hc
    simp only [shift]
    exact Par.inAbs (ih (by omega))
  | app hf ha ihf iha =>
    intro c hc
    simp only [shift]
    exact Par.app (ihf hc) (iha hc)

theorem par_substitute {t t' : Term} (ht : Par t t') :
    ∀ {s s' : Term} {k : Nat}, 1 ≤ k → Par s s' →
      Par (substitute t k s) (substitute t' k s') := by
  induction ht with
  | var i =>
    intro s s' k hk hs
    simp only [substitute]
    split_ifs
    · exact hs
    · exact Par.refl _
    · exact Par.refl _
  | @beta b b' a a' hb ha ihb iha =>
    intro s s' k hk hs
    simp only [substitute]
    rw [← substitute_substitute b' (by omega) hk]
    exact Par.beta (ihb (by omega) (par_shift hs (by omega))) (iha hk hs)
  | inAbs hb ih =>
    intro s s' k hk hs
    simp only [substitute]
    exact Par.inAbs (ih (by omega) (par_shift hs (by omega)))
  | app hf ha ihf iha =>
    intro s s' k hk hs
    simp only [substitute]
    exact Par.app (ihf hk hs) (iha hk hs)

/-! ### The triangle property and confluence of parallel reduction -/

theorem par_abs_inv {b u : Term} (h : Par (Abs b) u) :
    ∃ b', u = Abs b' ∧ Par b b' := by
  cases h with
  | inAbs hb => exact ⟨_, rfl, hb⟩

theorem par_triangle {t u : Term} (h : Par t u) : Par u (cd t) := by
  induction h with
  | var i => exact Par.var i
  | @beta b b' a a' hb ha ihb iha =>
    simp only [cd]
    exact par_substitute ihb (by omega) iha
  | inAbs hb ih =>
    simp only [cd]
    exact Par.inAbs ih
  | @app f f' a a' hf ha ihf iha =>
    cases f with
    | Var i =>
      simp only [cd]
      exact Par.app ihf iha
    | App g1 g2 =>
      simp only [cd]
      exact Par.app ihf iha
    | Abs b =>
      obtain ⟨b2, rfl, hb⟩ := par_abs_inv hf
      simp only [cd] at ihf ⊢
      cases ihf with
      | inAbs h2 => exact Par.beta h2 iha

theorem par_strip {t u v : Term} (hu : Par t u) (hv : ParStar t v) :
    ∃ w, ParStar u w ∧ Par v w := by
  induction hv using Relation.ReflTransGen.head_induction_on generalizing u with
  | refl => exact ⟨cd v, Relation.ReflTransGen.single (par_triangle hu), par_triangle (Par.refl v)⟩
  | head hstep hrest ih =>
    obtain ⟨w, hw1, hw2⟩ := ih (par_triangle hstep)
    exact ⟨w, Relation.ReflTransGen.head (par_triangle hu) hw1, hw2⟩

theorem par_confluence {t r1 : Term} (h1 : ParStar t r1) :
    ∀ {r2 : Term}, ParStar t r2 → ∃ w, ParStar r1 w ∧ ParStar r2 w := by
  induction h1 using Relation.ReflTransGen.head_induction_on with
  | refl => intro r2 h2; exact ⟨r2, h2, Relation.ReflTransGen.refl⟩
  | head hstep hrest ih =>
    intro r2 h2
    obtain ⟨w, hw1, hw2⟩ := par_strip hstep h2
    obtain ⟨n, hn1, hn2⟩ := ih hw1
    exact ⟨n, hn1, Relation.ReflTransGen.head hw2 hn2⟩

/-! ### Normal forms are stable -/

theorem eq_of_par_of_normal {t u : Term} (hn : hasBetaRedex t = false)
    (h : Par t u) : u = t := by
  induction h with
  | var i => rfl
  | @beta b b' a a' hb ha ihb iha => simp [hasBetaRedex] at hn
  | inAbs hb ih =>
    simp only [hasBetaRedex] at hn
    rw [ih hn]
  | @app f f' a a' hf ha ihf iha =>
    cases f with
    | Abs b => simp [hasBetaRedex] at hn
    | Var i =>
      simp only [hasBetaRedex, Bool.or_eq_false_iff] at hn
      rw [ihf rfl, iha hn.2]
    | App g1 g2 =>
      simp only [hasBetaRedex, Bool.or_eq_false_iff] at hn
      rw [ihf hn.1, iha hn.2]

theorem eq_of_parStar_of_normal {t u : Term} (hn : hasBetaRedex t = false)
    (h : ParStar t u) : u = t := by
  induction h with
  | refl => rfl
  | tail hab hbc ih =>
    rw [ih] at hbc
    exact eq_of_par_of_normal hn hbc

/-! ### The iterated engine runs inside multi-step reduction -/

theorem betaUnbounded_fix {order : Order} : ∀ fuel {t r : Term},
    betaUnbounded order t fuel = some r → beta_step r order = r := by
  intro fuel
  induction fuel with
  | zero => intro t r h; simp [betaUnbounded] at h
  | succ n ih =>
    intro t r h
    simp only [betaUnbounded] at h
    by_cases hc : beta_step t order = t
    · rw [if_pos hc] at h
      simp only [Option.some.injEq] at h
      subst h
      exact hc
    · rw [if_neg hc] at h
      exact ih h

theorem betaStepO_of_changed {order : Order} {t : Term}
    (hc : ¬beta_step t order = t) : betaStepO order t = some (beta_step t order) := by
  cases hs : betaStepO order t with
  | none => exact absurd (by simp [beta_step, hs]) hc
  | some w => simp [beta_step, hs]

theorem betaUnbounded_parStar {order : Order} : ∀ fuel {t r : Term},
    betaUnbounded order t fuel = some r → ParStar t r := by
  intro fuel
  induction fuel with
  | zero => intro t r h; simp [betaUnbounded] at h
  | succ n ih =>
    intro t r h
    simp only [betaUnbounded] at h
    by_cases hc : beta_step t order = t
    · rw [if_pos hc] at h
      simp only [Option.some.injEq] at h
      subst h
      exact Relation.ReflTransGen.refl
    · rw [if_neg hc] at h
      have hstep := betaStepO_sound order t _ (betaStepO_of_changed hc)
      exact Relation.ReflTransGen.head (par_of_step hstep) (ih h)

/-- Any two runs of the unbounded engine that both stop at genuine normal
forms agree, whatever the two strategies were (uniqueness of normal forms,
by confluence). -/
theorem strategy_agreement {o1 o2 : Order} {t r1 r2 : Term} {f1 f2 : Nat}
    (h1 : betaUnbounded o1 t f1 = some r1) (h2 : betaUnbounded o2 t f2 = some r2)
    (hn1 : hasBetaRedex r1 = false) (hn2 : hasBetaRedex r2 = false) : r1 = r2 := by
  obtain ⟨w, hw1, hw2⟩ := par_confluence (betaUnbounded_parStar f1 h1)
    (betaUnbounded_parStar f2 h2)
  rw [← eq_of_parStar_of_normal hn1 hw1, ← eq_of_parStar_of_normal hn2 hw2]

/-! ### Free-name resolution in the parser -/

theorem posOf_append_self {free : List String} {n : String}
    (h : posOf free n = none) : posOf (free ++ [n]) n = some free.length := by
  induction free with
  | nil => simp [posOf]
  | cons x xs ih =>
    simp only [posOf] at h
    by_cases hx : x = n
    · rw [if_pos hx] at h
      exact absurd h (by simp)
    · have h' : posOf xs n = none := by
        rw [if_neg hx] at h
        cases hp : posOf xs n with
        | none => rfl
        | some q => rw [hp] at h; simp at h
      show posOf (x :: (xs ++ [n])) n = some (xs.length + 1)
      simp only [posOf]
      rw [if_neg hx, ih h', Option.map_some']

/-- Appending to a list does not move the first occurrence of a name that
is already present. -/
theorem posOf_append_of_some {l : List String} {n : String} :
    ∀ {q : Nat}, posOf l n = some q →
      ∀ ext, posOf (l ++ ext) n = some q := by
  induction l with
  | nil => intro q h ext; simp [posOf] at h
  | cons x xs ih =>
    intro q h ext
    show posOf (x :: (xs ++ ext)) n = some q
    simp only [posOf] at h ⊢
    by_cases hx : x = n
    · rw [if_pos hx] at h ⊢
      exact h
    · rw [if_neg hx] at h ⊢
      cases hp : posOf xs n with
      | none => rw [hp] at h; exact absurd h (by simp)
      | some q0 =>
        rw [hp, Option.map_some'] at h
        rw [ih hp ext, Option.map_some', h]

/-- `resolve` only ever grows the free-name table, and only by appending
at the end. -/
theorem resolve_appends (ctx free : List String) (n : String) :
    ∃ ext, (resolve ctx free n).2 = free ++ ext := by
  cases h1 : posOf ctx n with
  | some p => exact ⟨[], by simp [resolve, h1]⟩
  | none =>
    cases h2 : posOf free n with
    | some q => exact ⟨[], by simp [resolve, h1, h2]⟩
    | none => exact ⟨[n], by simp [resolve, h1, h2]⟩

/-- A name with no enclosing binder resolves above the binder depth. -/
theorem resolve_gt_depth {ctx free : List String} {n : String}
    (h : posOf ctx n = none) : ctx.length < (resolve ctx free n).1 := by
  cases hq : posOf free n with
  | some q =>
    simp only [resolve, h, hq]
    omega
  | none =>
    simp only [resolve, h, hq]
    omega

/-- Resolving a free name is stable across the rest of the parse: after a
name has been resolved once, resolving it again later — with the free-name
table grown by any further names, and under any binder context of the same
depth that still does not bind it — yields the same index and leaves the
grown table unchanged. -/
theorem resolve_stable_growth {ctx1 ctx2 free : List String} {n : String}
    (h1 : posOf ctx1 n = none) (h2 : posOf ctx2 n = none)
    (hlen : ctx2.length = ctx1.length) (ext : List String) :
    resolve ctx2 ((resolve ctx1 free n).2 ++ ext) n =
      ((resolve ctx1 free n).1, (resolve ctx1 free n).2 ++ ext) := by
  cases hq : posOf free n with
  | some q =>
    have e1 : resolve ctx1 free n = (ctx1.length + q + 1, free) := by
      simp [resolve, h1, hq]
    have hq2 : posOf (free ++ ext) n = some q := posOf_append_of_some hq ext
    rw [e1]
    simp only [resolve, h2, hq2]
    rw [hlen]
  | none =>
    have e1 : resolve ctx1 free n =
        (ctx1.length + free.length + 1, free ++ [n]) := by
      simp [resolve, h1, hq]
    have hq2 : posOf ((free ++ [n]) ++ ext) n = some free.length :=
      posOf_append_of_some (posOf_append_self hq) ext
    rw [e1]
    simp only [resolve, h2, hq2]
    rw [hlen]

/-- The parser only ever grows the free-name table, and only by appending
at the end: every successful run of any production returns the incoming
table extended with the (ordered) new free names.  Together with
`resolve_stable_growth` this makes free-name indices stable across a whole
parse. -/
theorem parseF_free_mono : ∀ (fuel : Nat) (mode : PMode) (d : Dialect)
    (ctx free : List String) (cs : List Char) (p : Nat) (t : Term)
    (free' : List String) (cs' : List Char) (p' : Nat),
    parseF fuel mode d ctx free cs p = Except.ok (t, free', cs', p') →
    ∃ ext, free' = free ++ ext := by
  intro fuel
  induction fuel with
  | zero =>
    intro mode d ctx free cs p t free' cs' p' h
    simp [parseF] at h
  | succ n ih =>
    intro mode d ctx free cs p t free' cs' p' h
    cases mode with
    | term =>
      simp only [parseF] at h
      split at h
      · simp at h
      · rename_i t1 free1 cs1 p1 heq
        obtain ⟨e1, he1⟩ := ih _ _ _ _ _ _ _ _ _ _ heq
        obtain ⟨e2, he2⟩ := ih _ _ _ _ _ _ _ _ _ _ h
        exact ⟨e1 ++ e2, by rw [he2, he1, List.append_assoc]⟩
    | appRest acc =>
      simp only [parseF] at h
      split at h
      · simp only [Except.ok.injEq, Prod.mk.injEq] at h
        obtain ⟨h1, h2, h3, h4⟩ := h
        rw [← h2]
        exact ⟨[], by simp⟩
      · simp only [Except.ok.injEq, Prod.mk.injEq] at h
        obtain ⟨h1, h2, h3, h4⟩ := h
        rw [← h2]
        exact ⟨[], by simp⟩
      · split at h
        · simp at h
        · rename_i t1 free1 cs2 p2 heq
          obtain ⟨e1, he1⟩ := ih _ _ _ _ _ _ _ _ _ _ heq
          obtain ⟨e2, he2⟩ := ih _ _ _ _ _ _ _ _ _ _ h
          exact ⟨e1 ++ e2, by rw [he2, he1, List.append_assoc]⟩
    | atom =>
      simp only [parseF] at h
      split at h
      · simp at h
      · split at h
        · split at h
          · split at h
            · simp at h
            · rename_i b free2 cs2 p2 heq
              simp only [Except.ok.injEq, Prod.mk.injEq] at h
              obtain ⟨h1, h2, h3, h4⟩ := h
              rw [← h2]
              exact ih _ _ _ _ _ _ _ _ _ _ heq
          · exact ih _ _ _ _ _ _ _ _ _ _ h
        · split at h
          · split at h
            · simp at h
            · rename_i t1 free2 cs2 p2 heq
              split at h
              · simp only [Except.ok.injEq, Prod.mk.injEq] at h
                obtain ⟨h1, h2, h3, h4⟩ := h
                rw [← h2]
                exact ih _ _ _ _ _ _ _ _ _ _ heq
              · simp at h
          · split at h
            · split at h
              · simp only [Except.ok.injEq, Prod.mk.injEq] at h
                obtain ⟨h1, h2, h3, h4⟩ := h
                rw [← h2]
                exact resolve_appends ctx free _
              · simp at h
            · split at h
              · split at h
                · simp at h
                · simp only [Except.ok.injEq, Prod.mk.injEq] at h
                  obtain ⟨h1, h2, h3, h4⟩ := h
                  rw [← h2]
                  exact ⟨[], by simp⟩
              · simp at h
    | binder names =>
      simp only [parseF] at h
      split at h
      · simp at h
      · split at h
        · split at h
          · simp at h
          · split at h
            · simp at h
            · rename_i b free2 cs2 p2 heq
              simp only [Except.ok.injEq, Prod.mk.injEq] at h
              obtain ⟨h1, h2, h3, h4⟩ := h
              rw [← h2]
              exact ih _ _ _ _ _ _ _ _ _ _ heq
        · split at h
          · exact ih _ _ _ _ _ _ _ _ _ _ h
          · simp at h

/-! ### The claims -/

/-- C1.  Substitution is capture-avoiding: for every term `t`, index `i`
and value `v`, a (positive, per the de Bruijn convention) index is free in
`substitute t i v` exactly when it is a free variable of `t` below `i`, a
free variable of `t` above `i` renumbered down by one, or — when `i` is
free in `t`, so a copy of `v` was inserted — a free variable of `v` at its
original index: every occurrence coming from an inserted copy of `v`
still refers to the binder scope it had in `v`'s original scope, and no
binder of `t` captures it, because `v` is re-shifted at every binder
crossing rather than spliced textually. -/
theorem claim_c1_substitution_capture_avoiding (t : Term) (i : Nat)
    (v : Term) (j : Nat) (hj : 1 ≤ j) :
    isFreeIn (substitute t i v) j = true ↔
      (isFreeIn t j = true ∧ j < i) ∨
        (isFreeIn t (j + 1) = true ∧ i ≤ j) ∨
          (isFreeIn t i = true ∧ isFreeIn v j = true) :=
  isFreeIn_substitute hj

/-- Witness for C1: substituting `λ 1` (the identity) for index 1 in
`λ (2 3)` — a body that references the substituted slot and an outer free
variable — at the concrete free index 2. -/
theorem claim_c1_witness :
    (1 ≤ 2) ∧
      (isFreeIn (substitute (Abs (App (Var 2) (Var 3))) 1 (Abs (Var 1))) 2 = true ↔
        (isFreeIn (Abs (App (Var 2) (Var 3))) 2 = true ∧ 2 < 1) ∨
          (isFreeIn (Abs (App (Var 2) (Var 3))) 3 = true ∧ 1 ≤ 2) ∨
            (isFreeIn (Abs (App (Var 2) (Var 3))) 1 = true ∧
              isFreeIn (Abs (Var 1)) 2 = true)) :=
  ⟨by decide,
    claim_c1_substitution_capture_avoiding (Abs (App (Var 2) (Var 3))) 1
      (Abs (Var 1)) 2 (by decide)⟩

/-- C2.  For every term and reduction order, `beta_step` performs exactly
one contraction of the redex selected by that order (the result differs
from the input by a single `Step1` contraction whenever the redex search
succeeds), and when no redex exists under that order it returns the input
term unchanged rather than signalling any error. -/
theorem claim_c2_beta_step_one_contraction (order : Order) (t : Term) :
    (∀ r, betaStepO order t = some r → Step1 t r) ∧
      (betaStepO order t = none → beta_step t order = t) :=
  ⟨betaStepO_sound order t, fun h => by simp [beta_step, h]⟩

/-- Witness for C2: one normal-order contraction of `(λ 1) 5`, and the
unchanged return on the redex-free term `5`. -/
theorem claim_c2_witness :
    Step1 (App (Abs (Var 1)) (Var 5)) (Var 5) ∧ beta_step (Var 5) NOR = Var 5 :=
  ⟨by
    have h := (claim_c2_beta_step_one_contraction NOR
      (App (Abs (Var 1)) (Var 5))).1 (Var 5) (by decide)
    exact h,
    (claim_c2_beta_step_one_contraction NOR (Var 5)).2 (by decide)⟩

/-- C3.  For every order, whenever `beta` with limit 0 terminates with a
term `r`, that `r` is a fixed point of `beta_step` under the order (limit
0 means unbounded iteration to a fixed point); and limit 0 is not a
request for zero steps: there are runs with limit 0 whose result differs
from the input. -/
theorem claim_c3_limit_zero_unbounded (order : Order) :
    (∀ (t : Term) (fuel : Nat) (r : Term),
        beta t order 0 fuel = some r → beta_step r order = r) ∧
      (∃ (t : Term) (fuel : Nat) (r : Term),
        beta t order 0 fuel = some r ∧ r ≠ t) := by
  constructor
  · intro t fuel r h
    rw [beta, if_pos rfl] at h
    exact betaUnbounded_fix fuel h
  · cases order <;>
      exact ⟨App (Abs (Var 1)) (Abs (Var 1)), 3, Abs (Var 1), by decide, by decide⟩

/-- Witness for C3: the normal-order run of `(λ 1) 7` with limit 0
terminates, and its result is a `beta_step` fixed point. -/
theorem claim_c3_witness : beta_step (Var 7) NOR = Var 7 :=
  (claim_c3_limit_zero_unbounded NOR).1 (App (Abs (Var 1)) (Var 7)) 3 (Var 7)
    (by decide)

/-- C4, counterexample.  The claim fails as stated: `t0 = (λλ1) Ω`
possesses a normal form (`λ1`, reached in one contraction), and both the
normal-order and the applicative-order run of `beta` with limit 0
terminate — but with different results, `λ1` versus `t0` itself, because
the applicative-order step maps `t0` to the structurally equal `t0` (the
`Ω` argument rewrites to itself), which the engine's structural fixed
point detection treats as completion. -/
theorem claim_c4_counterexample :
    beta (App (Abs (Abs (Var 1)))
        (App (Abs (App (Var 1) (Var 1))) (Abs (App (Var 1) (Var 1)))))
        NOR 0 3 = some (Abs (Var 1)) ∧
      beta (App (Abs (Abs (Var 1)))
        (App (Abs (App (Var 1) (Var 1))) (Abs (App (Var 1) (Var 1)))))
        APP 0 3 =
        some (App (Abs (Abs (Var 1)))
          (App (Abs (App (Var 1) (Var 1))) (Abs (App (Var 1) (Var 1))))) ∧
      Step1 (App (Abs (Abs (Var 1)))
        (App (Abs (App (Var 1) (Var 1))) (Abs (App (Var 1) (Var 1)))))
        (Abs (Var 1)) ∧
      hasBetaRedex (Abs (Var 1)) = false ∧
      (App (Abs (Abs (Var 1)))
        (App (Abs (App (Var 1) (Var 1))) (Abs (App (Var 1) (Var 1)))) : Term) ≠
        Abs (Var 1) := by
  refine ⟨by decide, by decide, ?_, by decide, by decide⟩
  have h := Step1.beta (Abs (Var 1))
    (App (Abs (App (Var 1) (Var 1))) (Abs (App (Var 1) (Var 1))))
  rwa [show substitute (Abs (Var 1)) 1
      (App (Abs (App (Var 1) (Var 1))) (Abs (App (Var 1) (Var 1)))) =
      Abs (Var 1) from by decide] at h

/-- C4, amended.  For every term, whenever the normal-order and the
applicative-order runs of `beta` with limit 0 both terminate at terms
that are in beta-normal form (contain no redex), the two results are
structurally equal (confluence / uniqueness of normal forms); intermediate
step counts may differ. -/
theorem claim_c4_strategy_agreement {t r1 r2 : Term} {f1 f2 : Nat}
    (h1 : beta t NOR 0 f1 = some r1) (h2 : beta t APP 0 f2 = some r2)
    (hn1 : hasBetaRedex r1 = false) (hn2 : hasBetaRedex r2 = false) :
    r1 = r2 := by
  rw [beta, if_pos rfl] at h1 h2
  exact strategy_agreement h1 h2 hn1 hn2

/-- Witness for the amended C4: on `(λ 1) (λ 1)` both strategies terminate
at the normal form `λ 1`. -/
theorem claim_c4_witness : (Abs (Var 1) : Term) = Abs (Var 1) :=
  @claim_c4_strategy_agreement (App (Abs (Var 1)) (Abs (Var 1)))
    (Abs (Var 1)) (Abs (Var 1)) 3 3 (by decide) (by decide) (by decide)
    (by decide)

/-- C5.  `normalize` is extensionally equal to `beta` with normal order,
limit 0 and quiet output: the two entry points agree on every term (and
every modelling fuel). -/
theorem claim_c5_normalize_is_beta_nor :
    ∀ (t : Term) (fuel : Nat), normalize t fuel = beta t NOR 0 fuel := by
  intro t fuel
  rw [beta, if_pos rfl]
  induction fuel generalizing t with
  | zero => rfl
  | succ n ih =>
    simp only [normalize, betaUnbounded]
    by_cases hc : beta_step t NOR = t
    · rw [if_pos hc, if_pos hc]
    · rw [if_neg hc, if_neg hc, ih]

/-- C6.  Parsing the classic-notation text `λx.λy.x` succeeds with
`Abs (Abs (Var 2))`, and parsing the de Bruijn text `λλ2` succeeds with
the structurally identical tree. -/
theorem claim_c6_parser_round_trip :
    parse "λx.λy.x" Dialect.Classic = Except.ok (Abs (Abs (Var 2))) ∧
      parse "λλ2" Dialect.DeBruijn = Except.ok (Abs (Abs (Var 2))) :=
  ⟨by decide, by decide⟩

/-- C7.  Free variables are resolved stably across the whole parse: a
name with no enclosing binder resolves to an index strictly greater than
the binder depth; once resolved, resolving the same name again — with the
free-name table grown by any names resolved in between, under any binder
context of the same depth that still does not bind it — yields the same
index and leaves the table unchanged; and the parser only ever grows the
table by appending, so every later occurrence of a free name in one parse
sees its established slot.  Concretely, parsing `λx.y z y` resolves both
occurrences of the free `y` to index 2 (above the depth-1 binder) even
though the distinct free `z` was assigned index 3 in between. -/
theorem claim_c7_free_variable_stability :
    (∀ (ctx1 ctx2 free : List String) (n : String) (ext : List String),
        posOf ctx1 n = none → posOf ctx2 n = none →
        ctx2.length = ctx1.length →
          ctx1.length < (resolve ctx1 free n).1 ∧
            resolve ctx2 ((resolve ctx1 free n).2 ++ ext) n =
              ((resolve ctx1 free n).1, (resolve ctx1 free n).2 ++ ext)) ∧
      (∀ (fuel : Nat) (mode : PMode) (d : Dialect) (ctx free : List String)
          (cs : List Char) (p : Nat) (t : Term) (free' : List String)
          (cs' : List Char) (p' : Nat),
          parseF fuel mode d ctx free cs p = Except.ok (t, free', cs', p') →
          ∃ ext, free' = free ++ ext) ∧
      parse "λx.y z y" Dialect.Classic =
        Except.ok (Abs (App (App (Var 2) (Var 3)) (Var 2))) :=
  ⟨fun _ _ _ _ ext h1 h2 hlen =>
    ⟨resolve_gt_depth h1, resolve_stable_growth h1 h2 hlen ext⟩,
    parseF_free_mono, by decide⟩

/-- Witness for C7: resolving the free `y` under the binder context `[x]`
and then again under the different depth-1 context `[z]` with the table
grown by `[w]` in between yields the same index; and a concrete successful
parser run extends the empty free-name table by appending `y`. -/
theorem claim_c7_witness :
    (List.length ["x"] < (resolve ["x"] [] "y").1 ∧
      resolve ["z"] ((resolve ["x"] [] "y").2 ++ ["w"]) "y" =
        ((resolve ["x"] [] "y").1, (resolve ["x"] [] "y").2 ++ ["w"])) ∧
      ∃ ext, ["y"] = [] ++ ext :=
  ⟨claim_c7_free_variable_stability.1 ["x"] ["z"] [] "y" ["w"] (by decide)
      (by decide) (by decide),
    claim_c7_free_variable_stability.2.1 8 PMode.term Dialect.Classic [] []
      ("y".data) 0 (Var 1) ["y"] [] 1 (by decide)⟩

/-- C8.  Parsing the malformed text `λx.(x` (unmatched parenthesis)
returns a `ParseError`, and for every input and syntax the parser's result
is either a complete term or an error — never a partial term. -/
theorem claim_c8_error_boundary :
    (∃ e, parse "λx.(x" Dialect.Classic = Except.error e) ∧
      ∀ (s : String) (d : Dialect),
        (∃ t, parse s d = Except.ok t) ∨ (∃ e, parse s d = Except.error e) := by
  refine ⟨⟨⟨"unmatched parenthesis", 5⟩, by decide⟩, ?_⟩
  intro s d
  cases h : parse s d with
  | ok t => exact Or.inl ⟨t, rfl⟩
  | error e => exact Or.inr ⟨e, rfl⟩

/-- C9.  `unpair` (and `unpair_ref`, hence `is_pair`) decides success by
shape alone, never inspecting the head: applied to `(f a) b`, or to
`λ.((f a) b)`, it succeeds with `(a, b)` for arbitrary `f`; when the term
after stripping at most one outer abstraction is not an application it
fails with `NotAPair`; and when that candidate is an application whose
function side is not itself an application it returns the right-hand-side
projection's error (`NotApplication`) instead. -/
theorem claim_c9_unpair_shape_only (f a b g t c : Term) :
    Term.unpair (App (App f a) b) = Except.ok (a, b) ∧
      Term.unpair (Abs (App (App f a) b)) = Except.ok (a, b) ∧
      Term.is_pair (App (App f a) b) = true ∧
      Term.is_pair (Abs (App (App f a) b)) = true ∧
      (isApp (stripAbs t) = false →
        Term.unpair t = Except.error Error.NotAPair) ∧
      (isApp g = false → stripAbs c = App g b →
        Term.unpair c = Except.error Error.NotApplication) := by
  refine ⟨?_, ?_, ?_, ?_, ?_, ?_⟩
  · simp [Term.unpair, stripAbs, Term.unapp, Term.rhs]
  · simp [Term.unpair, stripAbs, Term.unapp, Term.rhs]
  · simp [Term.is_pair, Term.unpair_ref, stripAbs, Term.unapp, Term.rhs,
      Except.isOk, Except.toBool]
  · simp [Term.is_pair, Term.unpair_ref, stripAbs, Term.unapp, Term.rhs,
      Except.isOk, Except.toBool]
  · intro h
    cases hst : stripAbs t with
    | Var i => simp [Term.unpair, hst, Term.unapp]
    | Abs b2 => simp [Term.unpair, hst, Term.unapp]
    | App x y => rw [hst] at h; simp [isApp] at h
  · intro h1 h2
    cases g with
    | Var i => simp [Term.unpair, h2, Term.unapp, Term.rhs]
    | Abs b2 => simp [Term.unpair, h2, Term.unapp, Term.rhs]
    | App x y => simp [isApp] at h1

/-- Witness for C9: a successful shape-only unpairing with the non-pair
head `1`, a `NotAPair` failure on a bare variable, and the propagated
`NotApplication` failure on a single application. -/
theorem claim_c9_witness :
    Term.unpair (App (App (Var 1) (Var 2)) (Var 3)) = Except.ok (Var 2, Var 3) ∧
      Term.unpair (Var 4) = Except.error Error.NotAPair ∧
      Term.unpair (App (Var 1) (Var 3)) = Except.error Error.NotApplication := by
  have h := claim_c9_unpair_shape_only (Var 1) (Var 2) (Var 3) (Var 1) (Var 4)
    (App (Var 1) (Var 3))
  exact ⟨h.1, h.2.2.2.2.1 (by decide), h.2.2.2.2.2 (by decide) (by decide)⟩

/-- C10.  Pair construction and destructuring round-trip without any
reduction: `From<(Term, Term)>` builds `λ.((1 a) b)`, and on that term
`unpair` returns `(a, b)`, `fst` returns `a` and `snd` returns `b`. -/
theorem claim_c10_pair_round_trip (a b : Term) :
    Term.fromPair (a, b) = Abs (App (App (Var 1) a) b) ∧
      (Term.fromPair (a, b)).unpair = Except.ok (a, b) ∧
      (Term.fromPair (a, b)).fst = Except.ok a ∧
      (Term.fromPair (a, b)).snd = Except.ok b := by
  refine ⟨rfl, ?_, ?_, ?_⟩ <;>
    simp [Term.fromPair, Term.unpair, Term.fst, Term.snd, stripAbs,
      Term.unapp, Term.rhs]

end LC
